import Mathlib

/-!
Shallow embedding of the two editor extensions of this repository:
the goto-line command (parsing the address grammar and resolving it to a
document offset) and the selection-match highlighter (collecting decorated
match spans over the visible viewport).  Documents are modelled as lists of
characters (flat) or lists of lines (for the line-oriented goto-line code);
JavaScript numbers are modelled as `Nat`/`Int`/`Rat` as appropriate.
-/

namespace GotoSearch

/-- Numeric value of a decimal digit string, as JavaScript `+str` computes it
for a string of digits. -/
def digitsToNat (l : List Char) : Nat :=
  l.foldl (fun a c => a * 10 + (c.toNat - '0'.toNat)) 0

/-- The parsed goto-line input: capture groups of `([+-])?(\d+)?(:\d+)?(%)?`.
`col` stores the digits after the colon (the code computes `cl.slice(1)`). -/
structure AddrInput where
  sign : Option Char
  ln : Option (List Char)
  col : Option (List Char)
  percent : Bool
deriving DecidableEq

/-- Split a leading `+`/`-` sign character off the input, as the regex group
`([+-])?` does. -/
def splitSign (s : List Char) : Option Char × List Char :=
  match s with
  | c :: r => if c = '+' ∨ c = '-' then (some c, r) else (none, s)
  | [] => (none, [])

/-- After the sign, digit and column groups are consumed, the rest of the
input must be empty or a single `%` (groups `(%)?$`). -/
def parseAfterCol (sign : Option Char) (ln col : Option (List Char)) :
    List Char → Option AddrInput
  | [] => some ⟨sign, ln, col, false⟩
  | [c] => if c = '%' then some ⟨sign, ln, col, true⟩ else none
  | _ => none

/-- Consume the optional `(:\d+)?` group (a colon followed by at least one
digit) and then the percent group. -/
def parseTail (sign : Option Char) (ln : Option (List Char)) (s2 : List Char) :
    Option AddrInput :=
  match s2 with
  | c :: r =>
    if c = ':' then
      let cs := r.takeWhile Char.isDigit
      if cs = [] then none
      else parseAfterCol sign ln (some cs) (r.dropWhile Char.isDigit)
    else parseAfterCol sign ln none s2
  | [] => parseAfterCol sign ln none []

/-- Parse the part of the input after the optional sign: the optional digit
group `(\d+)?` followed by column and percent groups. -/
def parseAddrCore (sign : Option Char) (s1 : List Char) : Option AddrInput :=
  let ds := s1.takeWhile Char.isDigit
  parseTail sign (if ds = [] then none else some ds) (s1.dropWhile Char.isDigit)

/-- Parse a goto-line input against the regular expression
`^([+-])?(\d+)?(:\d+)?(%)?$` from the `go` function, returning the captured
groups, or `none` when the input does not match. -/
def parseAddr (s : List Char) : Option AddrInput :=
  let p := splitSign s
  parseAddrCore p.1 p.2

/-- The goto-line input grammar `^([+-])?(\d+)?(:\d+)?(%)?$`, stated
declaratively as the existence of a decomposition of the input into the four
groups.  This follows the spec's wording of the grammar and is used to show
that `parseAddr` accepts exactly the inputs matching the grammar. -/
def grammarMatches (s : List Char) : Prop :=
  ∃ sg d c p : List Char,
    s = sg ++ d ++ c ++ p ∧
    (sg = [] ∨ sg = ['+'] ∨ sg = ['-']) ∧
    (∀ ch ∈ d, ch.isDigit = true) ∧
    (c = [] ∨ ∃ ds, c = ':' :: ds ∧ ds ≠ [] ∧ ∀ ch ∈ ds, ch.isDigit = true) ∧
    (p = [] ∨ p = ['%'])

/-- JavaScript `Math.round`: rounds to the nearest integer, halves toward
positive infinity. -/
def jsRound (q : ℚ) : ℤ := ⌊q + 1 / 2⌋

/-- The target line computed by `go` from the parsed input, the 1-based
current line number and the total number of lines, before clamping:
percentages (absolute, or relative when signed), signed relative offsets,
absolute line numbers, or the current line when no digit group is present. -/
def targetLine (a : AddrInput) (cur total : Nat) : ℤ :=
  let line : ℤ := match a.ln with
    | some ds => (digitsToNat ds : ℤ)
    | none => (cur : ℤ)
  if a.ln.isSome && a.percent then
    let pc0 : ℚ := (line : ℚ) / 100
    let pc : ℚ :=
      if a.sign.isSome then
        pc0 * (if a.sign = some '-' then -1 else 1) + (cur : ℚ) / (total : ℚ)
      else pc0
    jsRound ((total : ℚ) * pc)
  else if a.ln.isSome && a.sign.isSome then
    line * (if a.sign = some '-' then -1 else 1) + (cur : ℤ)
  else line

/-- A document for the goto-line command: the list of its lines (each line a
list of characters, newlines implicit between consecutive lines). -/
abbrev LineDoc := List (List Char)

/-- Offset of the start of 1-based line `n`: each earlier line contributes its
length plus one separating newline. -/
def lineStart (doc : LineDoc) (n : Nat) : Nat :=
  ((doc.take (n - 1)).map (fun l => l.length + 1)).sum

/-- Length of 1-based line `n`. -/
def lineLen (doc : LineDoc) (n : Nat) : Nat :=
  (doc.getD (n - 1) []).length

/-- Total character length of the document: line lengths plus the newlines
between consecutive lines. -/
def docLength (doc : LineDoc) : Nat :=
  (doc.map List.length).sum + (doc.length - 1)

/-- Helper for `lineAtNum`: walk the lines, counting the line number, until
the remaining position falls inside the current line (a position at a line's
trailing newline belongs to that line). -/
def lineAtAux : LineDoc → Nat → Nat → Nat
  | [], n, _ => n
  | l :: rest, n, pos =>
    if pos ≤ l.length then n else lineAtAux rest (n + 1) (pos - (l.length + 1))

/-- 1-based number of the line containing a position, as `doc.lineAt` gives
it. -/
def lineAtNum (doc : LineDoc) (pos : Nat) : Nat := lineAtAux doc 1 pos

/-- The line clamp `Math.max(1, Math.min(state.doc.lines, line))`. -/
def clampLine (t : ℤ) (total : Nat) : Nat := (max 1 (min (total : ℤ) t)).toNat

/-- The column: the digits after the colon, or 0 when absent
(`cl ? +cl.slice(1) : 0`). -/
def colOf (a : AddrInput) : Nat :=
  match a.col with
  | some ds => digitsToNat ds
  | none => 0

/-- The `go` function of the goto-line dialog: parse the input; on success
compute the target line from the current line (the line holding the selection
head), clamp it into `[1, totalLines]`, clamp the column into
`[0, targetLine.length]`, and produce the offset `docLine.from + column`.
Returns `none` (no dispatch) when the input does not match the grammar. -/
def resolveGoto (s : List Char) (doc : LineDoc) (head : Nat) : Option Nat :=
  match parseAddr s with
  | none => none
  | some a =>
    let n := clampLine (targetLine a (lineAtNum doc head) doc.length) doc.length
    some (lineStart doc n + max 0 (min (colOf a) (lineLen doc n)))

/-- The observable cursor position after running the goto-line command: the
resolved position on success, the unchanged head position when the input is
rejected (the code returns without dispatching). -/
def gotoCommand (s : List Char) (doc : LineDoc) (head : Nat) : Nat :=
  (resolveGoto s doc head).getD head

/-- Parse plus target-line computation, exposing the resolved (pre-clamp)
target line for a given current line and line count. -/
def targetLineOfInput (s : List Char) (cur total : Nat) : Option ℤ :=
  (parseAddr s).map fun a => targetLine a cur total

/-- Character categories of the host editor's categorizer (`CharCategory`
from the state package). -/
inductive CharCategory where
  | Word
  | Space
  | Other
deriving DecidableEq

/-- JavaScript `slice(a, b)` on a string, for `0 ≤ a ≤ b`. -/
def sliceL (l : List Char) (a b : Nat) : List Char := (l.drop a).take (b - a)

/-- JavaScript `String.prototype.trim`: strip leading and trailing
whitespace. -/
def trimL (l : List Char) : List Char :=
  ((l.dropWhile Char.isWhitespace).reverse.dropWhile Char.isWhitespace).reverse

/-- The highlighter's configuration after facet combination:
`highlightWordAroundCursor`, `minSelectionLength`, `maxMatches`. -/
structure HLConfig where
  highlightWordAroundCursor : Bool
  minSelectionLength : Nat
  maxMatches : Nat

/-- The snapshot of editor state the highlighter reads: the document, the
selection ranges (the main range first), the character categorizer the state
provides at the cursor, and the view's visible ranges. -/
structure HLState where
  doc : List Char
  ranges : List (Nat × Nat)
  categorizer : List Char → CharCategory
  visibleRanges : List (Nat × Nat)

/-- One decoration: a span and whether it is the main (`selectionMatch.main`)
or a regular (`selectionMatch`) match decoration. -/
structure Deco where
  dfrom : Nat
  dto : Nat
  main : Bool
deriving DecidableEq

/-- The main selection range (`sel.main`); the code reads it only after
checking that there is exactly one range. -/
def mainRange (st : HLState) : Nat × Nat := st.ranges.headD (0, 0)

/-- Helper for `lineAtFlat`: walk the split lines accumulating the start
offset, until the position falls inside the current line. -/
def lineAtFlatAux : List (List Char) → Nat → Nat → List Char × Nat
  | [], off, _ => ([], off)
  | l :: rest, off, pos =>
    if pos ≤ l.length then (l, off)
    else lineAtFlatAux rest (off + l.length + 1) (pos - (l.length + 1))

/-- `doc.lineAt(pos)` on a flat document: the text of the line containing the
position and the line's start offset. -/
def lineAtFlat (doc : List Char) (pos : Nat) : List Char × Nat :=
  lineAtFlatAux (doc.splitOn '\n') 0 pos

/-- The left expansion loop of `wordAt`: while the cluster ending at the
current offset classifies as a word, move to the previous cluster break (the
host's `findClusterBreak`, one character here). -/
def expandLeft (text : List Char) (check : List Char → CharCategory) : Nat → Nat
  | 0 => 0
  | i + 1 =>
    if check (sliceL text i (i + 1)) ≠ CharCategory.Word then i + 1
    else expandLeft text check i

/-- The right expansion loop of `wordAt`, with fuel bounding the remaining
distance to the end of the line: while inside the line and the next cluster
classifies as a word, advance past it. -/
def expandRightAux (text : List Char) (check : List Char → CharCategory) :
    Nat → Nat → Nat
  | 0, i => i
  | f + 1, i =>
    if check (sliceL text i (i + 1)) ≠ CharCategory.Word then i
    else expandRightAux text check f (i + 1)

/-- `wordAt(doc, pos, check)`: expand left and right from the cursor offset
within its line, one cluster at a time, while clusters classify as word;
`none` when the expansion is empty. -/
def wordAt (doc : List Char) (pos : Nat) (check : List Char → CharCategory) :
    Option (List Char) :=
  let li := lineAtFlat doc pos
  let start := pos - li.2
  let f := expandLeft li.1 check start
  let t := expandRightAux li.1 check (li.1.length - start) start
  if f = t then none else some (sliceL li.1 f t)

/-- Modelled from the spec: the repository's `SearchCursor` (`src/cursor.ts`
is not among the sources; only this import site is).  Per spec section 4.1 it
enumerates the non-overlapping occurrences of a non-empty literal query
inside `[start, stop)`, scanning forward, resuming after each match at the
match's end, and short-circuiting when fewer characters than the query remain.
The fuel argument bounds the scan: every step advances the scan position. -/
def searchAux (doc q : List Char) (stop : Nat) : Nat → Nat → List (Nat × Nat)
  | 0, _ => []
  | fuel + 1, i =>
    if i + q.length ≤ stop then
      if sliceL doc i (i + q.length) = q then
        (i, i + q.length) :: searchAux doc q stop fuel (i + q.length)
      else searchAux doc q stop fuel (i + 1)
    else []

/-- Modelled from the spec: all matches the `SearchCursor` yields over
`[start, stop)`; an empty query yields no matches. -/
def searchMatches (doc q : List Char) (start stop : Nat) : List (Nat × Nat) :=
  if q = [] then [] else searchAux doc q stop (stop + 1 - start) start

/-- All matches over the visible ranges, in viewport order: one cursor per
visible range, as the `getDeco` loop runs them. -/
def allMatches (doc q : List Char) (parts : List (Nat × Nat)) : List (Nat × Nat) :=
  (parts.map fun p => searchMatches doc q p.1 p.2).flatten

/-- The whole-word acceptance test of the `getDeco` loop: with no classifier
every match passes; with a classifier the characters adjacent to the span
(when they exist) must not classify as word. -/
def wholeWordOk (check : Option (List Char → CharCategory)) (doc : List Char)
    (f t : Nat) : Bool :=
  match check with
  | none => true
  | some c =>
    (f == 0 || decide (c (sliceL doc (f - 1) f) ≠ CharCategory.Word)) &&
    (t == doc.length || decide (c (sliceL doc t (t + 1)) ≠ CharCategory.Word))

/-- The match-collection loop of `getDeco`: for each match passing the
whole-word test, push a main decoration when the classifier is active and the
span contains the selection range, a regular decoration when the span does
not overlap the selection range, nothing otherwise; abort with an empty
result the moment the accumulated count exceeds `maxM`. -/
def collect (check : Option (List Char → CharCategory)) (doc : List Char)
    (range : Nat × Nat) (maxM : Nat) :
    List (Nat × Nat) → List Deco → Option (List Deco)
  | [], acc => some acc
  | m :: ms, acc =>
    if wholeWordOk check doc m.1 m.2 then
      let acc' :=
        if check.isSome ∧ m.1 ≤ range.1 ∧ range.2 ≤ m.2 then acc ++ [⟨m.1, m.2, true⟩]
        else if range.2 ≤ m.1 ∨ m.2 ≤ range.1 then acc ++ [⟨m.1, m.2, false⟩]
        else acc
      if maxM < acc'.length then none else collect check doc range maxM ms acc'
    else collect check doc range maxM ms acc

/-- The decorations the loop would accumulate with no count cutoff; used to
characterize the all-or-nothing behaviour of `collect`. -/
def decosOf (check : Option (List Char → CharCategory)) (doc : List Char)
    (range : Nat × Nat) (ms : List (Nat × Nat)) : List Deco :=
  ms.filterMap fun m =>
    if wholeWordOk check doc m.1 m.2 then
      if check.isSome ∧ m.1 ≤ range.1 ∧ range.2 ≤ m.2 then some ⟨m.1, m.2, true⟩
      else if range.2 ≤ m.1 ∨ m.2 ≤ range.1 then some ⟨m.1, m.2, false⟩
      else none
    else none

/-- The query-selection stage of `getDeco` (its first half): `none` for
multiple ranges; for an empty cursor the word around the cursor (only with
`highlightWordAroundCursor` on), together with the active classifier; for a
non-empty range the trimmed slice, gated by `minSelectionLength` and the
fixed 200-character maximum, with no classifier. -/
def selQuery (conf : HLConfig) (st : HLState) :
    Option (List Char × Option (List Char → CharCategory)) :=
  if 1 < st.ranges.length then none
  else
    let range := mainRange st
    if range.1 = range.2 then
      if conf.highlightWordAroundCursor = false then none
      else
        match wordAt st.doc range.2 st.categorizer with
        | none => none
        | some q => some (q, some st.categorizer)
    else
      let len := range.2 - range.1
      if len < conf.minSelectionLength ∨ 200 < len then none
      else
        let q := trimL (sliceL st.doc range.1 range.2)
        if q = [] then none else some (q, none)

/-- `getDeco`: the full decoration pass.  `none` models the `Decoration.none`
early returns and the match-count abort; `some l` models `Decoration.set l`. -/
def getDeco (conf : HLConfig) (st : HLState) : Option (List Deco) :=
  match selQuery conf st with
  | none => none
  | some qc =>
    collect qc.2 st.doc (mainRange st) conf.maxMatches
      (allMatches st.doc qc.1 st.visibleRanges) []

/-- A sample categorizer for concrete scenarios: alphanumeric clusters are
words, everything else is space. -/
def wordCat : List Char → CharCategory :=
  fun l => if !l.isEmpty && l.all Char.isAlphanum then CharCategory.Word
           else CharCategory.Space

/-- The document of spec scenario 1. -/
def fooDoc : List Char := "foo bar foo".toList

-- the exact self-match at [8,11) is skipped.
/-- The decomposition grammar for the input remaining after the optional
sign: digits, optional colon-digits group, optional percent. -/
def coreMatches (s1 : List Char) : Prop :=
  ∃ d c p : List Char,
    s1 = d ++ c ++ p ∧
    (∀ ch ∈ d, ch.isDigit = true) ∧
    (c = [] ∨ ∃ ds, c = ':' :: ds ∧ ds ≠ [] ∧ ∀ ch ∈ ds, ch.isDigit = true) ∧
    (p = [] ∨ p = ['%'])

theorem takeWhile_digit_append (d rest : List Char)
    (hd : ∀ c ∈ d, c.isDigit = true)
    (hr : ∀ c cs, rest = c :: cs → c.isDigit = false) :
    (d ++ rest).takeWhile Char.isDigit = d ∧
      (d ++ rest).dropWhile Char.isDigit = rest := by
  induction d with
  | nil =>
    simp only [List.nil_append]
    cases rest with
    | nil => simp
    | cons c cs =>
      have hcd := hr c cs rfl
      simp [List.takeWhile_cons, List.dropWhile_cons, hcd]
  | cons a d ih =>
    have ha : a.isDigit = true := hd a (by simp)
    have h12 := ih (fun c hc => hd c (by simp [hc]))
    simp [List.takeWhile_cons, List.dropWhile_cons, ha, h12.1, h12.2]

theorem dropWhile_digit_head (l : List Char) (c : Char) (cs : List Char)
    (h : l.dropWhile Char.isDigit = c :: cs) : c.isDigit = false := by
  induction l with
  | nil => simp at h
  | cons a l ih =>
    rw [List.dropWhile_cons] at h
    by_cases hp : a.isDigit = true
    · rw [if_pos hp] at h
      exact ih h
    · rw [if_neg hp] at h
      cases h
      simpa using hp

theorem parseAfterCol_isSome (sign : Option Char) (ln col : Option (List Char))
    (t : List Char) :
    (parseAfterCol sign ln col t).isSome = true ↔ (t = [] ∨ t = ['%']) := by
  rcases t with _ | ⟨c, _ | ⟨c2, r⟩⟩
  · simp [parseAfterCol]
  · by_cases hc : c = '%' <;> simp [parseAfterCol, hc]
  · simp [parseAfterCol]

theorem parseTail_isSome (sign : Option Char) (ln : Option (List Char))
    (s2 : List Char) :
    (parseTail sign ln s2).isSome = true ↔
      (∃ c p : List Char, s2 = c ++ p ∧
        (c = [] ∨ ∃ ds, c = ':' :: ds ∧ ds ≠ [] ∧ ∀ ch ∈ ds, ch.isDigit = true) ∧
        (p = [] ∨ p = ['%'])) := by
  constructor
  · intro h
    rcases s2 with _ | ⟨c, r⟩
    · exact ⟨[], [], rfl, Or.inl rfl, Or.inl rfl⟩
    · by_cases hc : c = ':'
      · subst hc
        rw [parseTail] at h
        simp only [if_pos rfl] at h
        by_cases hcs : r.takeWhile Char.isDigit = []
        · rw [if_pos hcs] at h
          simp at h
        · rw [if_neg hcs] at h
          have hp := (parseAfterCol_isSome _ _ _ _).mp h
          refine ⟨':' :: r.takeWhile Char.isDigit, r.dropWhile Char.isDigit, ?_, ?_, hp⟩
          · simp [List.takeWhile_append_dropWhile]
          · exact Or.inr ⟨r.takeWhile Char.isDigit, rfl, hcs,
              fun ch hch => List.mem_takeWhile_imp hch⟩
      · rw [parseTail] at h
        simp only [if_neg hc] at h
        have hp := (parseAfterCol_isSome _ _ _ _).mp h
        rcases hp with hp | hp
        · cases hp
        · exact ⟨[], ['%'], hp, Or.inl rfl, Or.inr rfl⟩
  · rintro ⟨c, p, heq, hc, hp⟩
    subst heq
    rcases hc with hc | ⟨ds, hc, hds, hdig⟩
    · subst hc
      rcases hp with hp | hp <;> subst hp
      · simp [parseTail, parseAfterCol]
      · rw [List.nil_append, parseTail]
        have : ('%' = ':') = False := by simp
        simp only [this, if_false]
        simp [parseAfterCol]
    · subst hc
      rw [List.cons_append, parseTail]
      simp only [if_pos rfl]
      have htw := takeWhile_digit_append ds p hdig
        (fun ch cs hcs => by
          rcases hp with hp | hp <;> subst hp
          · cases hcs
          · cases hcs; decide)
      rw [htw.1, htw.2, if_neg hds]
      exact (parseAfterCol_isSome _ _ _ _).mpr hp

theorem parseAddrCore_isSome (sign : Option Char) (s1 : List Char) :
    (parseAddrCore sign s1).isSome = true ↔ coreMatches s1 := by
  constructor
  · intro h
    rw [parseAddrCore] at h
    obtain ⟨c, p, heq, hc, hp⟩ := (parseTail_isSome _ _ _).mp h
    refine ⟨s1.takeWhile Char.isDigit, c, p, ?_,
      fun ch hch => List.mem_takeWhile_imp hch, hc, hp⟩
    conv_lhs => rw [← List.takeWhile_append_dropWhile Char.isDigit s1]
    rw [heq, List.append_assoc]
  · rintro ⟨d, c, p, heq, hd, hc, hp⟩
    subst heq
    rw [parseAddrCore]
    have hr : ∀ ch cs, c ++ p = ch :: cs → ch.isDigit = false := by
      intro ch cs hcs
      rcases hc with hc | ⟨ds, hc, _, _⟩
      · subst hc
        rw [List.nil_append] at hcs
        rcases hp with hp | hp <;> subst hp
        · cases hcs
        · cases hcs; decide
      · subst hc
        cases hcs; decide
    have htw := takeWhile_digit_append d (c ++ p) hd hr
    rw [← List.append_assoc] at htw
    rw [htw.2]
    exact (parseTail_isSome _ _ _).mpr ⟨c, p, rfl, hc, hp⟩

theorem head_not_sign (d c p : List Char)
    (hd : ∀ ch ∈ d, ch.isDigit = true)
    (hc : c = [] ∨ ∃ ds, c = ':' :: ds ∧ ds ≠ [] ∧ ∀ ch ∈ ds, ch.isDigit = true)
    (hp : p = [] ∨ p = ['%'])
    (ch : Char) (r : List Char) (heq : d ++ c ++ p = ch :: r) :
    ¬(ch = '+' ∨ ch = '-') := by
  intro hsig
  have key : ch.isDigit = true ∨ ch = ':' ∨ ch = '%' := by
    cases d with
    | cons a dd =>
      simp only [List.cons_append] at heq
      injection heq with h1 h2
      subst h1
      exact Or.inl (hd _ (List.mem_cons_self _ _))
    | nil =>
      simp only [List.nil_append] at heq
      rcases hc with hc | ⟨ds, hc, -, -⟩
      · subst hc
        simp only [List.nil_append] at heq
        rcases hp with hp | hp <;> subst hp
        · exact absurd heq (by simp)
        · injection heq with h1 h2
          exact Or.inr (Or.inr h1.symm)
      · subst hc
        simp only [List.cons_append] at heq
        injection heq with h1 h2
        exact Or.inr (Or.inl h1.symm)
  rcases hsig with h | h <;> subst h <;> rcases key with h2 | h2 | h2 <;>
    exact absurd h2 (by decide)

theorem parseAddr_isSome_iff (s : List Char) :
    (parseAddr s).isSome = true ↔ grammarMatches s := by
  constructor
  · intro h
    rcases s with _ | ⟨ch, r⟩
    · obtain ⟨d, c, p, heq, hd, hc, hp⟩ :=
        (parseAddrCore_isSome none []).mp h
      exact ⟨[], d, c, p, by simpa using heq, Or.inl rfl, hd, hc, hp⟩
    · by_cases hch : ch = '+' ∨ ch = '-'
      · rw [parseAddr] at h
        simp only [splitSign, if_pos hch] at h
        obtain ⟨d, c, p, heq, hd, hc, hp⟩ := (parseAddrCore_isSome _ _).mp h
        refine ⟨[ch], d, c, p, by simp [heq], ?_, hd, hc, hp⟩
        rcases hch with h2 | h2 <;> subst h2 <;> simp
      · rw [parseAddr] at h
        simp only [splitSign, if_neg hch] at h
        obtain ⟨d, c, p, heq, hd, hc, hp⟩ := (parseAddrCore_isSome _ _).mp h
        exact ⟨[], d, c, p, by simpa using heq, Or.inl rfl, hd, hc, hp⟩
  · rintro ⟨sg, d, c, p, heq, hsg, hd, hc, hp⟩
    subst heq
    rcases hsg with hsg | hsg | hsg <;> subst hsg
    · rw [List.nil_append]
      have hcore := (parseAddrCore_isSome none (d ++ c ++ p)).mpr
        ⟨d, c, p, rfl, hd, hc, hp⟩
      rcases hdc : d ++ c ++ p with _ | ⟨ch, r⟩
      · rw [hdc] at hcore
        rw [parseAddr]
        simpa [splitSign] using hcore
      · have hns := head_not_sign d c p hd hc hp ch r hdc
        rw [hdc] at hcore
        rw [parseAddr]
        simp only [splitSign, if_neg hns]
        exact hcore
    · rw [List.cons_append, parseAddr]
      simp only [splitSign, if_pos (show '+' = '+' ∨ '+' = '-' from Or.inl rfl)]
      exact (parseAddrCore_isSome _ _).mpr ⟨d, c, p, rfl, hd, hc, hp⟩
    · rw [List.cons_append, parseAddr]
      simp only [splitSign, if_pos (show '-' = '+' ∨ '-' = '-' from Or.inr rfl)]
      exact (parseAddrCore_isSome _ _).mpr ⟨d, c, p, rfl, hd, hc, hp⟩

/-- Claim C5: an input that does not match the grammar
`^([+-])?(\d+)?(:\d+)?(%)?$` is rejected: resolution produces nothing (no
selection is dispatched) and the observable cursor position is exactly what
it was before. -/
theorem goto_reject_no_change (s : List Char) (doc : LineDoc) (head : Nat)
    (h : ¬grammarMatches s) :
    resolveGoto s doc head = none ∧ gotoCommand s doc head = head := by
  have hp : parseAddr s = none := by
    cases hpa : parseAddr s with
    | none => rfl
    | some a => exact absurd ((parseAddr_isSome_iff s).mp (by rw [hpa]; rfl)) h
  constructor
  · simp [resolveGoto, hp]
  · simp [gotoCommand, resolveGoto, hp]

/-- Witness for C5 at the concrete rejected input of spec scenario 6. -/
theorem goto_reject_no_change_witness :
    resolveGoto "abc".toList [['x']] 0 = none ∧
      gotoCommand "abc".toList [['x']] 0 = 0 :=
  goto_reject_no_change "abc".toList [['x']] 0
    (fun h => absurd ((parseAddr_isSome_iff _).mpr h) (by decide))

/-- Claim C3: an input of sign, digit magnitude and percent suffix resolves
(before clamping) to `round(totalLines * (currentLine/totalLines +
sign * magnitude/100))`. -/
theorem goto_signed_percent (sgnc : Char) (ds : List Char) (cur total : Nat)
    (hs : sgnc = '+' ∨ sgnc = '-') (hds : ds ≠ [])
    (hdig : ∀ c ∈ ds, c.isDigit = true) :
    targetLineOfInput (sgnc :: (ds ++ ['%'])) cur total =
      some (jsRound ((total : ℚ) *
        ((cur : ℚ) / (total : ℚ) +
          (if sgnc = '-' then -1 else 1) * (digitsToNat ds : ℚ) / 100))) := by
  have hparse : parseAddr (sgnc :: (ds ++ ['%'])) =
      some ⟨some sgnc, some ds, none, true⟩ := by
    rw [parseAddr]
    simp only [splitSign, if_pos hs]
    rw [parseAddrCore]
    have htw := takeWhile_digit_append ds ['%'] hdig
      (fun c cs hcs => by cases hcs; decide)
    rw [htw.1, htw.2, if_neg hds]
    simp only [parseTail]
    rw [if_neg (by decide : ¬('%' : Char) = ':')]
    simp [parseAfterCol]
  rw [targetLineOfInput, hparse]
  rw [show Option.map (fun a => targetLine a cur total)
        (some ⟨some sgnc, some ds, none, true⟩) =
      some (targetLine ⟨some sgnc, some ds, none, true⟩ cur total) from rfl]
  by_cases hneg : sgnc = '-' <;>
    simp only [targetLine, Option.some.injEq, hneg] <;> norm_num <;>
    (congr 1 ; ring)

/-- Witness for C3 at spec scenario 4: input `-10%`, current line 40 of a
200-line document, resolves to target line 20. -/
theorem goto_signed_percent_witness :
    targetLineOfInput "-10%".toList 40 200 = some 20 := by
  have h := goto_signed_percent '-' ['1', '0'] 40 200 (Or.inr rfl)
    (by decide) (by decide)
  rw [show "-10%".toList = '-' :: (['1', '0'] ++ ['%']) from rfl, h]
  norm_num [jsRound, digitsToNat, show '1'.toNat - '0'.toNat = 1 from rfl,
    show '0'.toNat - '0'.toNat = 0 from rfl]

theorem docLength_cons (l : List Char) (rest : LineDoc) (h : rest ≠ []) :
    docLength (l :: rest) = l.length + 1 + docLength rest := by
  have h1 : 1 ≤ rest.length := List.length_pos.mpr h
  simp only [docLength, List.map_cons, List.sum_cons, List.length_cons]
  omega

theorem lineStart_cons (l : List Char) (rest : LineDoc) (m : Nat) :
    lineStart (l :: rest) (m + 2) = l.length + 1 + lineStart rest (m + 1) := by
  show ((List.take (m + 2 - 1) (l :: rest)).map _).sum = _
  have : m + 2 - 1 = m + 1 := rfl
  rw [this, List.take_succ_cons, List.map_cons, List.sum_cons]
  rfl

theorem lineLen_cons (l : List Char) (rest : LineDoc) (m : Nat) :
    lineLen (l :: rest) (m + 2) = lineLen rest (m + 1) := by
  simp [lineLen]

theorem lineStart_add_len_le (doc : LineDoc) :
    ∀ n, 1 ≤ n → n ≤ doc.length →
      lineStart doc n + lineLen doc n ≤ docLength doc := by
  induction doc with
  | nil => intro n h1 h2; simp at h2; omega
  | cons l rest ih =>
    intro n h1 h2
    match n, h1 with
    | 1, _ =>
      have : lineStart (l :: rest) 1 = 0 := by simp [lineStart]
      rw [this]
      have hl : lineLen (l :: rest) 1 = l.length := by simp [lineLen]
      rw [hl]
      simp only [docLength, List.map_cons, List.sum_cons]
      omega
    | (m + 2), _ =>
      have hr : m + 1 ≤ rest.length := by
        simpa using h2
      have hrest : rest ≠ [] := by
        intro hx; subst hx; simp at hr
      have ihm := ih (m + 1) (by omega) hr
      rw [lineStart_cons, lineLen_cons, docLength_cons l rest hrest]
      omega

theorem lineAtAux_ge (doc : LineDoc) : ∀ n pos, n ≤ lineAtAux doc n pos := by
  induction doc with
  | nil => intro n pos; simp [lineAtAux]
  | cons l rest ih =>
    intro n pos
    simp only [lineAtAux]
    split
    · exact le_refl n
    · exact le_trans (by omega) (ih (n + 1) _)

theorem lineAtAux_le (doc : LineDoc) :
    ∀ n pos, doc ≠ [] → pos ≤ docLength doc →
      lineAtAux doc n pos ≤ n + (doc.length - 1) := by
  induction doc with
  | nil => intro n pos h; cases h rfl
  | cons l rest ih =>
    intro n pos hne hpos
    simp only [lineAtAux]
    split
    · omega
    · rename_i hgt
      have hrest : rest ≠ [] := by
        intro hx; subst hx
        simp [docLength] at hpos
        omega
      have hlen : pos - (l.length + 1) ≤ docLength rest := by
        rw [docLength_cons l rest hrest] at hpos; omega
      have hih := ih (n + 1) (pos - (l.length + 1)) hrest hlen
      have hrl : 1 ≤ rest.length := List.length_pos.mpr hrest
      simp only [List.length_cons]
      omega

theorem lineAtNum_bounds (doc : LineDoc) (pos : Nat) (h : doc ≠ [])
    (hp : pos ≤ docLength doc) :
    1 ≤ lineAtNum doc pos ∧ lineAtNum doc pos ≤ doc.length := by
  unfold lineAtNum
  refine ⟨lineAtAux_ge doc 1 pos, ?_⟩
  have h1 := lineAtAux_le doc 1 pos h hp
  have h2 : 1 ≤ doc.length := List.length_pos.mpr h
  omega

theorem clampLine_bounds (t : ℤ) (total : Nat) (h : 1 ≤ total) :
    1 ≤ clampLine t total ∧ clampLine t total ≤ total := by
  unfold clampLine
  have h3 : min (total : ℤ) t ≤ (total : ℤ) := min_le_left _ _
  have h4 : (1 : ℤ) ≤ max 1 (min (total : ℤ) t) := le_max_left _ _
  have h5 : max 1 (min (total : ℤ) t) ≤ (total : ℤ) :=
    max_le (by exact_mod_cast h) h3
  omega

/-- Claim C4: whenever resolution succeeds, the produced position is the
start of a target line whose number was clamped into `[1, totalLines]`, plus
a column clamped to that line's length, and the position never exceeds the
document length. -/
theorem goto_position_bounds (s : List Char) (doc : LineDoc) (head pos : Nat)
    (hdoc : doc ≠ []) (hp : resolveGoto s doc head = some pos) :
    ∃ n c, 1 ≤ n ∧ n ≤ doc.length ∧ c ≤ lineLen doc n ∧
      pos = lineStart doc n + c ∧ pos ≤ docLength doc := by
  cases hpa : parseAddr s with
  | none => rw [resolveGoto, hpa] at hp; cases hp
  | some a =>
    rw [resolveGoto, hpa] at hp
    simp only [Option.some.injEq] at hp
    obtain ⟨h1, h2⟩ := clampLine_bounds
      (targetLine a (lineAtNum doc head) doc.length) doc.length
      (List.length_pos.mpr hdoc)
    refine ⟨clampLine (targetLine a (lineAtNum doc head) doc.length) doc.length,
      max 0 (min (colOf a)
        (lineLen doc (clampLine (targetLine a (lineAtNum doc head) doc.length)
          doc.length))),
      h1, h2, ?_, hp.symm, ?_⟩
    · rw [Nat.zero_max]
      exact min_le_right _ _
    · have hle := lineStart_add_len_le doc _ h1 h2
      have hc : max 0 (min (colOf a)
          (lineLen doc (clampLine (targetLine a (lineAtNum doc head)
            doc.length) doc.length))) ≤
          lineLen doc (clampLine (targetLine a (lineAtNum doc head)
            doc.length) doc.length) := by
        rw [Nat.zero_max]; exact min_le_right _ _
      omega

/-- Witness for C4: input `12:5`-style resolution on a concrete two-line
document stays within bounds. -/
theorem goto_position_bounds_witness :
    ∃ n c, 1 ≤ n ∧ n ≤ ([['a', 'b'], ['c']] : LineDoc).length ∧
      c ≤ lineLen [['a', 'b'], ['c']] n ∧
      4 = lineStart [['a', 'b'], ['c']] n + c ∧
      4 ≤ docLength [['a', 'b'], ['c']] :=
  goto_position_bounds "5:9".toList [['a', 'b'], ['c']] 0 4
    (by decide) (by decide)

/-- Claim C2 (amended): an input with no line digits targets the current
line, and with no column the resolved position is the start of the current
line (a cursor move, not in general a no-op). -/
theorem goto_no_magnitude (s : List Char) (a : AddrInput) (doc : LineDoc)
    (head : Nat) (hpa : parseAddr s = some a) (hln : a.ln = none)
    (hdoc : doc ≠ []) (hhead : head ≤ docLength doc) :
    targetLine a (lineAtNum doc head) doc.length = (lineAtNum doc head : ℤ) ∧
      (a.col = none →
        resolveGoto s doc head = some (lineStart doc (lineAtNum doc head))) := by
  have htl : targetLine a (lineAtNum doc head) doc.length =
      (lineAtNum doc head : ℤ) := by
    simp [targetLine, hln]
  refine ⟨htl, fun hcol => ?_⟩
  obtain ⟨hb1, hb2⟩ := lineAtNum_bounds doc head hdoc hhead
  have hcl : clampLine (targetLine a (lineAtNum doc head) doc.length)
      doc.length = lineAtNum doc head := by
    rw [htl]
    unfold clampLine
    have hmin : min ((doc.length : ℤ)) ((lineAtNum doc head : ℤ)) =
        (lineAtNum doc head : ℤ) := min_eq_right (by exact_mod_cast hb2)
    rw [hmin]
    have hmax : max (1 : ℤ) ((lineAtNum doc head : ℤ)) =
        (lineAtNum doc head : ℤ) := max_eq_right (by exact_mod_cast hb1)
    rw [hmax]
    omega
  rw [resolveGoto, hpa]
  simp [hcl, colOf, hcol]

/-- Witness for C2's amended statement: input `+` on a one-line document with
the cursor mid-line. -/
theorem goto_no_magnitude_witness :
    targetLine ⟨some '+', none, none, false⟩ (lineAtNum [['a', 'b']] 1)
        ([['a', 'b']] : LineDoc).length = (lineAtNum [['a', 'b']] 1 : ℤ) ∧
      ((⟨some '+', none, none, false⟩ : AddrInput).col = none →
        resolveGoto "+".toList [['a', 'b']] 1 =
          some (lineStart [['a', 'b']] (lineAtNum [['a', 'b']] 1))) :=
  goto_no_magnitude "+".toList ⟨some '+', none, none, false⟩ [['a', 'b']] 1
    (by decide) rfl (by decide) (by decide)

/-- Counterexample to C2 as stated: the empty input matches the grammar with
no magnitude and no column, yet with the cursor at offset 1 (mid-line) the
command dispatches a cursor at offset 0 — the position changes. -/
theorem goto_no_magnitude_counterexample :
    gotoCommand [] [['a', 'b']] 1 = 0 ∧ (0 : Nat) ≠ 1 := by
  constructor
  · decide
  · decide

theorem collect_eq (check : Option (List Char → CharCategory)) (doc : List Char)
    (range : Nat × Nat) (maxM : Nat) :
    ∀ (ms : List (Nat × Nat)) (acc : List Deco), acc.length ≤ maxM →
      collect check doc range maxM ms acc =
        if maxM < (acc ++ decosOf check doc range ms).length then none
        else some (acc ++ decosOf check doc range ms) := by
  intro ms
  induction ms with
  | nil =>
    intro acc hacc
    have hn : ¬maxM < (acc ++ decosOf check doc range []).length := by
      simp [decosOf]; omega
    rw [if_neg hn]
    simp [collect, decosOf]
  | cons m ms ih =>
    intro acc hacc
    by_cases hww : wholeWordOk check doc m.1 m.2 = true
    · by_cases hmain : check.isSome ∧ m.1 ≤ range.1 ∧ range.2 ≤ m.2
      · have hd : decosOf check doc range (m :: ms) =
            ⟨m.1, m.2, true⟩ :: decosOf check doc range ms := by
          simp [decosOf, List.filterMap_cons, hww, hmain]
        rw [hd]
        simp only [collect, if_pos hww, if_pos hmain]
        by_cases hover : maxM < (acc ++ [(⟨m.1, m.2, true⟩ : Deco)]).length
        · rw [if_pos hover, if_pos (by
            simp only [List.length_append, List.length_cons, List.length_nil] at hover ⊢
            omega)]
        · rw [if_neg hover, ih _ (by
            simp only [List.length_append, List.length_cons, List.length_nil] at hover ⊢
            omega)]
          rw [show (acc ++ [(⟨m.1, m.2, true⟩ : Deco)]) ++
                decosOf check doc range ms =
              acc ++ (⟨m.1, m.2, true⟩ :: decosOf check doc range ms) by simp]
      · by_cases hreg : range.2 ≤ m.1 ∨ m.2 ≤ range.1
        · have hd : decosOf check doc range (m :: ms) =
              ⟨m.1, m.2, false⟩ :: decosOf check doc range ms := by
            simp [decosOf, List.filterMap_cons, hww, hmain, hreg]
          rw [hd]
          simp only [collect, if_pos hww, if_neg hmain, if_pos hreg]
          by_cases hover : maxM < (acc ++ [(⟨m.1, m.2, false⟩ : Deco)]).length
          · rw [if_pos hover, if_pos (by
              simp only [List.length_append, List.length_cons, List.length_nil] at hover ⊢
              omega)]
          · rw [if_neg hover, ih _ (by
              simp only [List.length_append, List.length_cons, List.length_nil] at hover ⊢
              omega)]
            rw [show (acc ++ [(⟨m.1, m.2, false⟩ : Deco)]) ++
                  decosOf check doc range ms =
                acc ++ (⟨m.1, m.2, false⟩ :: decosOf check doc range ms) by simp]
        · have hd : decosOf check doc range (m :: ms) =
              decosOf check doc range ms := by
            simp [decosOf, List.filterMap_cons, hww, hmain, hreg]
          rw [hd]
          simp only [collect, if_pos hww, if_neg hmain, if_neg hreg]
          rw [if_neg (by omega : ¬maxM < acc.length)]
          exact ih acc hacc
    · have hd : decosOf check doc range (m :: ms) =
          decosOf check doc range ms := by
        simp [decosOf, List.filterMap_cons, hww]
      rw [hd]
      simp only [collect]
      rw [if_neg hww]
      exact ih acc hacc

/-- Claim C7: the match-collection loop is all-or-nothing — if the
decorations it would accumulate exceed `maxMatches` it aborts with an empty
result, and a successful (non-aborted) result never holds more than
`maxMatches` decorations. -/
theorem match_cutoff (check : Option (List Char → CharCategory))
    (doc : List Char) (range : Nat × Nat) (maxM : Nat)
    (ms : List (Nat × Nat)) :
    (maxM < (decosOf check doc range ms).length →
      collect check doc range maxM ms [] = none) ∧
    (∀ r, collect check doc range maxM ms [] = some r → r.length ≤ maxM) := by
  have h0 : ([] : List Deco).length ≤ maxM := by simp
  have hc := collect_eq check doc range maxM ms [] h0
  rw [List.nil_append] at hc
  constructor
  · intro hover
    rw [hc, if_pos hover]
  · intro r hr
    rw [hc] at hr
    by_cases hover : maxM < (decosOf check doc range ms).length
    · rw [if_pos hover] at hr; cases hr
    · rw [if_neg hover] at hr
      rw [Option.some.injEq] at hr
      rw [← hr]
      omega

/-- Witness for C7: two regular matches with `maxMatches = 1` abort to an
empty result; with `maxMatches = 3` both are kept, within the bound. -/
theorem match_cutoff_witness :
    collect none "aa".toList (5, 5) 1 [(0, 1), (1, 2)] [] = none ∧
      ([⟨0, 1, false⟩, ⟨1, 2, false⟩] : List Deco).length ≤ 3 :=
  ⟨(match_cutoff none "aa".toList (5, 5) 1 [(0, 1), (1, 2)]).1 (by decide),
   (match_cutoff none "aa".toList (5, 5) 3 [(0, 1), (1, 2)]).2
     [⟨0, 1, false⟩, ⟨1, 2, false⟩] (by decide)⟩

theorem collect_mem (c : List Char → CharCategory) (doc : List Char)
    (range : Nat × Nat) (maxM : Nat) :
    ∀ (ms : List (Nat × Nat)) (acc r : List Deco),
      collect (some c) doc range maxM ms acc = some r →
      ∀ d ∈ r, d ∈ acc ∨ wholeWordOk (some c) doc d.dfrom d.dto = true := by
  intro ms
  induction ms with
  | nil =>
    intro acc r h d hd
    simp only [collect, Option.some.injEq] at h
    subst h
    exact Or.inl hd
  | cons m ms ih =>
    intro acc r h d hd
    by_cases hww : wholeWordOk (some c) doc m.1 m.2 = true
    · by_cases hmain : (some c).isSome ∧ m.1 ≤ range.1 ∧ range.2 ≤ m.2
      · simp only [collect, if_pos hww, if_pos hmain] at h
        by_cases hover : maxM < (acc ++ [(⟨m.1, m.2, true⟩ : Deco)]).length
        · rw [if_pos hover] at h; cases h
        · rw [if_neg hover] at h
          rcases ih _ _ h d hd with hin | hok
          · rcases List.mem_append.mp hin with hin | hin
            · exact Or.inl hin
            · right
              rcases List.mem_singleton.mp hin with rfl
              exact hww
          · exact Or.inr hok
      · by_cases hreg : range.2 ≤ m.1 ∨ m.2 ≤ range.1
        · simp only [collect, if_pos hww, if_neg hmain, if_pos hreg] at h
          by_cases hover : maxM < (acc ++ [(⟨m.1, m.2, false⟩ : Deco)]).length
          · rw [if_pos hover] at h; cases h
          · rw [if_neg hover] at h
            rcases ih _ _ h d hd with hin | hok
            · rcases List.mem_append.mp hin with hin | hin
              · exact Or.inl hin
              · right
                rcases List.mem_singleton.mp hin with rfl
                exact hww
            · exact Or.inr hok
        · simp only [collect, if_pos hww, if_neg hmain, if_neg hreg] at h
          by_cases hover : maxM < acc.length
          · rw [if_pos hover] at h; cases h
          · rw [if_neg hover] at h
            exact ih _ _ h d hd
    · simp only [collect] at h
      rw [if_neg hww] at h
      exact ih _ _ h d hd

/-- Claim C8: when classification is active, every decoration the collection
pass emits (main or regular) passed the whole-word test — the characters
adjacent to the span, when they exist, do not classify as word; matches
failing the test are never decorated. -/
theorem whole_word_only (c : List Char → CharCategory) (doc : List Char)
    (range : Nat × Nat) (maxM : Nat) (ms : List (Nat × Nat)) (r : List Deco)
    (h : collect (some c) doc range maxM ms [] = some r) :
    ∀ d ∈ r, wholeWordOk (some c) doc d.dfrom d.dto = true := by
  intro d hd
  rcases collect_mem c doc range maxM ms [] r h d hd with hin | hok
  · cases hin
  · exact hok

/-- Witness for C8: in `"foobar foo"` with query `foo`, the match at
`[0,3)` fails the whole-word test and only the whole-word match at `[7,10)`
is decorated; every emitted decoration passes the test. -/
theorem whole_word_only_witness :
    wholeWordOk (some wordCat) "foobar foo".toList 7 10 = true :=
  whole_word_only wordCat "foobar foo".toList (7, 10) 100 [(0, 3), (7, 10)]
    [⟨7, 10, true⟩] (by decide) ⟨7, 10, true⟩ (by decide)

/-- Claim C6: for a single non-empty selection whose trimmed text is
non-empty, the highlighter proceeds to the match pass exactly when the
selection length is between `minSelectionLength` and 200 inclusive. -/
theorem selection_length_gate (conf : HLConfig) (st : HLState) (r : Nat × Nat)
    (hr : st.ranges = [r]) (hne : r.1 < r.2) :
    (selQuery conf st).isSome = true ↔
      (conf.minSelectionLength ≤ r.2 - r.1 ∧ r.2 - r.1 ≤ 200 ∧
        trimL (sliceL st.doc r.1 r.2) ≠ []) := by
  have hlen : ¬1 < st.ranges.length := by rw [hr]; simp
  have hmain : mainRange st = r := by rw [mainRange, hr]; rfl
  simp only [selQuery, hmain, if_neg hlen]
  rw [if_neg (by omega : ¬r.1 = r.2)]
  by_cases hgate : r.2 - r.1 < conf.minSelectionLength ∨ 200 < r.2 - r.1
  · rw [if_pos hgate]
    simp only [Option.isSome_none, Bool.false_eq_true, false_iff]
    omega
  · rw [if_neg hgate]
    by_cases htr : trimL (sliceL st.doc r.1 r.2) = []
    · rw [if_pos htr]
      simp only [Option.isSome_none, Bool.false_eq_true, false_iff]
      simp [htr]
    · rw [if_neg htr]
      simp only [Option.isSome_some, true_iff]
      exact ⟨by omega, by omega, htr⟩

/-- Witness for C6: a length-2 selection with `minSelectionLength = 2` and
non-blank text passes the gate. -/
theorem selection_length_gate_witness :
    (selQuery ⟨false, 2, 100⟩
        ⟨"abab".toList, [(0, 2)], wordCat, [(0, 4)]⟩).isSome = true ↔
      (2 ≤ 2 - 0 ∧ 2 - 0 ≤ 200 ∧
        trimL (sliceL "abab".toList 0 2) ≠ []) :=
  selection_length_gate ⟨false, 2, 100⟩
    ⟨"abab".toList, [(0, 2)], wordCat, [(0, 4)]⟩ (0, 2) rfl (by decide)

/-- Claim C10: with an empty cursor and `highlightWordAroundCursor` on, the
word found around the cursor becomes the query with no length gate at all —
neither `minSelectionLength` nor the 200-character cap is consulted. -/
theorem cursor_word_unchecked (conf : HLConfig) (st : HLState) (r : Nat × Nat)
    (w : List Char) (hr : st.ranges = [r]) (he : r.1 = r.2)
    (hw : conf.highlightWordAroundCursor = true)
    (hq : wordAt st.doc r.2 st.categorizer = some w) :
    selQuery conf st = some (w, some st.categorizer) := by
  have hlen : ¬1 < st.ranges.length := by rw [hr]; simp
  have hmain : mainRange st = r := by rw [mainRange, hr]; rfl
  simp only [selQuery, hmain, if_neg hlen, if_pos he]
  rw [if_neg (by simp [hw] : ¬conf.highlightWordAroundCursor = false), hq]

/-- Witness for C10: a 2-character cursor word is used as the query even
with `minSelectionLength = 5`. -/
theorem cursor_word_unchecked_witness :
    selQuery ⟨true, 5, 100⟩ ⟨"ab".toList, [(1, 1)], wordCat, []⟩ =
      some (['a', 'b'], some wordCat) :=
  cursor_word_unchecked ⟨true, 5, 100⟩ ⟨"ab".toList, [(1, 1)], wordCat, []⟩
    (1, 1) ['a', 'b'] rfl rfl rfl (by decide)

/-- Claim C9: the decoration pass is a pure function of the configuration
and the state snapshot — identical inputs give an identical decoration
set. -/
theorem getDeco_deterministic (conf conf' : HLConfig) (st st' : HLState)
    (hc : conf = conf') (hs : st = st') : getDeco conf st = getDeco conf' st' := by
  rw [hc, hs]

/-- Witness for C9 on a concrete state. -/
theorem getDeco_deterministic_witness :
    getDeco ⟨false, 1, 100⟩ ⟨fooDoc, [(8, 11)], wordCat, [(0, 11)]⟩ =
      getDeco ⟨false, 1, 100⟩ ⟨fooDoc, [(8, 11)], wordCat, [(0, 11)]⟩ :=
  getDeco_deterministic ⟨false, 1, 100⟩ ⟨false, 1, 100⟩
    ⟨fooDoc, [(8, 11)], wordCat, [(0, 11)]⟩
    ⟨fooDoc, [(8, 11)], wordCat, [(0, 11)]⟩ rfl rfl

/-- Counterexample to C1 as stated: in `"foo bar foo"` with selection
`[8,11)` and classification inactive, the pass produces only the regular
decoration at `[0,3)`; no regular decoration at `[8,11)` exists (the exact
self-match fails the non-overlap condition and is skipped). -/
theorem scenario1_counterexample :
    getDeco ⟨false, 1, 100⟩ ⟨fooDoc, [(8, 11)], wordCat, [(0, 11)]⟩ =
        some [⟨0, 3, false⟩] ∧
      (⟨8, 11, false⟩ : Deco) ∉ ([⟨0, 3, false⟩] : List Deco) :=
  ⟨by decide, by decide⟩

/-- Claim C1 (amended): with classification inactive the pass yields only
the regular decoration at `[0,3)` (the exact self-match is skipped); with
classification active it yields the regular decoration at `[0,3)` and the
main decoration at `[8,11)`. -/
theorem scenario1_amended :
    getDeco ⟨false, 1, 100⟩ ⟨fooDoc, [(8, 11)], wordCat, [(0, 11)]⟩ =
        some [⟨0, 3, false⟩] ∧
      collect (some wordCat) fooDoc (8, 11) 100
          (allMatches fooDoc "foo".toList [(0, 11)]) [] =
        some [⟨0, 3, false⟩, ⟨8, 11, true⟩] :=
  ⟨by decide, by decide⟩

end GotoSearch
